import Mathlib

/-!
Shallow embedding of the PyBlock edit-buffering and commit engine
(`src/pyblock/editor.py`, class `Editor`), together with value-level models
of the collaborator interfaces (`Section`, `Chunk`, `Region` storage) that
the editor consumes.  Python dicts are embedded as insertion-ordered
association lists; in-place mutation is embedded as explicit state passing;
storage side effects are embedded as an explicit event trace.
-/

/-- Opaque block/voxel value.  The editor never inspects its internals
beyond passing it around and comparing, so a representative concrete
type is used. -/
abbrev Block := Nat

/-- A 2-d integer coordinate: a region id `(rx, rz)` or an in-region
chunk id `(cx, cz)`. -/
abbrev Coord2 := Int × Int

/-- Type of `section_id = (region_coord, chunk_coord, ylevel)` as built in
`Editor.set_block` / `Editor.get_block`. -/
abbrev SectionId := Coord2 × Coord2 × Int

/-- Key of the chunk caches: `(region_coord, chunk_coord)`. -/
abbrev ChunkKey := Coord2 × Coord2

/-- A block-entity (metadata) record: absolute position fields `x`, `y`,
`z` (the only fields the editor mutates), an identifying kind `eid`, and
an opaque remaining payload. -/
structure Entity where
  x : Int
  y : Int
  z : Int
  eid : String
  payload : Nat
deriving DecidableEq

/-- Collaborator model: a `Section` is a voxel container exposing
`get_block`/`set_block` by intra-section index (spec section 6). -/
structure Section where
  data : Nat → Block

def Section.get_block (s : Section) (i : Nat) : Block := s.data i

/-- Model of `set_block(block, index)`: per-index store, idempotent per index. -/
def Section.set_block (s : Section) (b : Block) (i : Nat) : Section :=
  ⟨fun j => if j = i then b else s.data j⟩

/-- Serialization handoff of a section to its chunk (`get_nbt`). -/
def Section.get_nbt (s : Section) : Section := s

def emptySection : Section := ⟨fun _ => 0⟩

/-- Collaborator model: a `Chunk` holds the sections of one chunk column
indexed by vertical level, plus its block-entity records
(`nbt_data["block_entities"]`). -/
structure Chunk where
  sections : Int → Section
  block_entities : List Entity

/-- Modelled from the spec: `Chunk.get_section` (the chunk collaborator is
not under `src/`).  Per spec sections 3/6 it yields the chunk's section for a
vertical level as a value; read-cache and write-cache sections are
independent copies, which value semantics makes literal. -/
def Chunk.get_section (c : Chunk) (ylevel : Int) : Section := c.sections ylevel

/-- Modelled from the spec: `Chunk.set_section` replaces one vertical
level's section payload. -/
def Chunk.set_section (c : Chunk) (ylevel : Int) (payload : Section) : Chunk :=
  { c with sections := fun l => if l = ylevel then payload else c.sections l }

/-- Encoded chunk byte-stream: modelled as the chunk data paired with the
metadata records merged into it (`Chunk.get_bytes(entities)`). -/
abbrev Bytes := Chunk × List Entity

def Chunk.get_bytes (c : Chunk) (ents : List Entity) : Bytes := (c, ents)

/-- The persistent world behind a world path: what
`Region(path, region_coord).read_chunk(chunk_coord)` (and `get_chunk`)
decodes from disk. -/
abbrev WorldData := Coord2 → Coord2 → Chunk

/-- Storage side effects performed by the editor. -/
inductive Event where
  | readChunk (rc cc : Coord2)
  | write (rc : Coord2) (cm : List (Coord2 × Bytes))

/-- The region/chunk-map pairs of the write calls in a trace. -/
def writesOf (tr : List Event) : List (Coord2 × List (Coord2 × Bytes)) :=
  tr.filterMap fun ev =>
    match ev with
    | Event.write rc cm => some (rc, cm)
    | _ => none

/-! ### Insertion-ordered association lists (Python dict model) -/

/-- First-occurrence lookup, like `d[k]` / `k in d`. -/
def lookupA {α β : Type} [DecidableEq α] : List (α × β) → α → Option β
  | [], _ => none
  | (k, v) :: rest, key => if key = k then some v else lookupA rest key

/-- Dict assignment `d[k] = v`: update the first occurrence in place, else append. -/
def setA {α β : Type} [DecidableEq α] : List (α × β) → α → β → List (α × β)
  | [], key, v => [(key, v)]
  | (k, w) :: rest, key, v =>
      if key = k then (key, v) :: rest else (k, w) :: setA rest key v

/-- Dict-of-lists append `if k in d: d[k].append(v) else: d[k] = [v]` — the pattern used for
`blocks_map`, `regions`, the per-region chunk grouping and the
`entities` defaultdict. -/
def addToListMap {α β : Type} [DecidableEq α] :
    List (α × List β) → α → β → List (α × List β)
  | [], k, v => [(k, [v])]
  | (k', l) :: rest, k, v =>
      if k = k' then (k', l ++ [v]) :: rest else (k', l) :: addToListMap rest k v

/-! ### Coordinate indexer -/

/-- Modelled from the spec: `tools.block_to_id_index` (pyblock/tools.py is
not among the sources).  Per spec sections 3/4.1 it decomposes an absolute
coordinate by floor division into the 4-tuple
`(region_coord, chunk_coord, ylevel, block_index)` with the fixed extents
of the storage layout the code targets: 512-block regions of 32x32
chunks, 16-block chunks, 16-block-high sections of 4096 voxels. -/
def block_to_id_index (x y z : Int) : Coord2 × Coord2 × Int × Nat :=
  ((x / 512, z / 512), ((x % 512) / 16, (z % 512) / 16), y / 16,
   ((y % 16) * 256 + (z % 16) * 16 + x % 16).toNat)

/-- Recomposition of the absolute coordinate from an address 4-tuple
(spec section 3: "address recomposition must exactly invert to the original
absolute coordinate"). -/
def id_index_to_block (a : Coord2 × Coord2 × Int × Nat) : Int × Int × Int :=
  (512 * a.1.1 + 16 * a.2.1.1 + (a.2.2.2 : Int) % 16,
   16 * a.2.2.1 + (a.2.2.2 : Int) / 256,
   512 * a.1.2 + 16 * a.2.1.2 + ((a.2.2.2 : Int) / 16) % 16)

/-- The `section_id` of an absolute coordinate. -/
def sidOf (x y z : Int) : SectionId :=
  let a := block_to_id_index x y z
  (a.1, a.2.1, a.2.2.1)

/-- The intra-section `block_index` of an absolute coordinate. -/
def idxOf (x y z : Int) : Nat := (block_to_id_index x y z).2.2.2

/-- The `(region_coord, chunk_coord)` key used for relocated entities. -/
def entityKey (x y z : Int) : ChunkKey :=
  let a := block_to_id_index x y z
  (a.1, a.2.1)

/-! ### Editor session state and operations -/

/-- The `Editor` session state: the world it edits plus the four caches
and the pending-write buffer (`__init__`). -/
structure Editor where
  world : WorldData
  blocks_map : List (SectionId × List (Block × Nat))
  sections : List (SectionId × Section)
  chunks : List (ChunkKey × Chunk)
  write_sections : List (SectionId × Section)
  entities : List (ChunkKey × List Entity)

/-- Constructor `Editor(path)`: fresh session over a world, all caches empty. -/
def Editor.init (w : WorldData) : Editor := ⟨w, [], [], [], [], []⟩

/-- Embedding of `Editor.set_block`: records the block and position in `blocks_map`;
touches nothing else. -/
def Editor.set_block (e : Editor) (block : Block) (x y z : Int) : Editor :=
  { e with blocks_map := addToListMap e.blocks_map (sidOf x y z) (block, idxOf x y z) }

/-- Embedding of `Editor.get_section`: two-level read path — chunk cache, else decode
the chunk from the region on disk and cache it; then derive the section
from the chunk. -/
def Editor.get_section (e : Editor) (sid : SectionId) : Section × Editor × List Event :=
  match lookupA e.chunks (sid.1, sid.2.1) with
  | some chunk => (chunk.get_section sid.2.2, e, [])
  | none =>
      let chunk := e.world sid.1 sid.2.1
      (chunk.get_section sid.2.2,
       { e with chunks := setA e.chunks (sid.1, sid.2.1) chunk },
       [Event.readChunk sid.1 sid.2.1])

/-- Embedding of `Editor.get_block`: memoize the section in the read-side section
cache, then read the voxel from it. -/
def Editor.get_block (e : Editor) (x y z : Int) : Block × Editor × List Event :=
  let sid := sidOf x y z
  match lookupA e.sections sid with
  | some s => (s.get_block (idxOf x y z), e, [])
  | none =>
      let r := e.get_section sid
      (r.1.get_block (idxOf x y z),
       { r.2.1 with sections := setA r.2.1.sections sid r.1 },
       r.2.2)

/-- Python truthiness of the optional `rep` argument (`if rep:`): true
exactly for a present, non-empty list. -/
def repTruthy (rep : Option (List (Int × Int × Int))) : Bool :=
  match rep with
  | some l => !l.isEmpty
  | none => false

/-- The cuboid offsets `(dx, dy, dz)` visited by the three nested
`range` loops of `copy_blocks`, in loop order. -/
def offsets (wx wy wz : Int) : List (Int × Int × Int) :=
  (List.range wx.toNat).flatMap fun dx =>
    (List.range wy.toNat).flatMap fun dy =>
      (List.range wz.toNat).map fun dz => ((dx : Int), (dy : Int), (dz : Int))

/-- One iteration of the `copy_blocks` voxel loop when the source world
is `self`: read the source voxel, then buffer it at each repetition
offset if `rep` is truthy, else at the base destination. -/
def copySameStep (sx sy sz tx ty tz : Int) (rep : Option (List (Int × Int × Int)))
    (acc : Editor × List Event) (d : Int × Int × Int) : Editor × List Event :=
  let r := acc.1.get_block (sx + d.1) (sy + d.2.1) (sz + d.2.2)
  let e2 :=
    if repTruthy rep then
      (rep.getD []).foldl
        (fun e rp => e.set_block r.1 (tx + d.1 + rp.1) (ty + d.2.1 + rp.2.1) (tz + d.2.2 + rp.2.2))
        r.2.1
    else
      r.2.1.set_block r.1 (tx + d.1) (ty + d.2.1) (tz + d.2.2)
  (e2, acc.2 ++ r.2.2)

/-- One iteration of the `copy_blocks` voxel loop when the source world
is a distinct session: reads update the source session, buffered writes
update `self`. -/
def copyOtherStep (sx sy sz tx ty tz : Int) (rep : Option (List (Int × Int × Int)))
    (acc : Editor × Editor × List Event) (d : Int × Int × Int) :
    Editor × Editor × List Event :=
  let r := acc.2.1.get_block (sx + d.1) (sy + d.2.1) (sz + d.2.2)
  let e2 :=
    if repTruthy rep then
      (rep.getD []).foldl
        (fun e rp => e.set_block r.1 (tx + d.1 + rp.1) (ty + d.2.1 + rp.2.1) (tz + d.2.2 + rp.2.2))
        acc.1
    else
      acc.1.set_block r.1 (tx + d.1) (ty + d.2.1) (tz + d.2.2)
  (e2, r.2.1, acc.2.2 ++ r.2.2)

/-- Entity scan of one chunk's record list: records inside the source
cuboid are translated in place by the copy shift and also staged under
their destination chunk key; the returned list is the chunk's record
list after the loop. -/
def processEntities (sx sy sz wx wy wz shx shy shz : Int) :
    List Entity → List Entity × List (ChunkKey × Entity)
  | [] => ([], [])
  | ent :: rest =>
      let r := processEntities sx sy sz wx wy wz shx shy shz rest
      if sx ≤ ent.x ∧ ent.x < sx + wx ∧ sy ≤ ent.y ∧ ent.y < sy + wy ∧
         sz ≤ ent.z ∧ ent.z < sz + wz then
        let ent' : Entity := { ent with x := ent.x + shx, y := ent.y + shy, z := ent.z + shz }
        (ent' :: r.1, (entityKey ent'.x ent'.y ent'.z, ent') :: r.2)
      else
        (ent :: r.1, r.2)

/-- Scan of every chunk in the source session's chunk cache
(`for chunk_coord, chunk in source_world.chunks.items()`); the in-place
mutation of matching records shows up as the updated cache. -/
def scanChunks (sx sy sz wx wy wz shx shy shz : Int) :
    List (ChunkKey × Chunk) → List (ChunkKey × Chunk) × List (ChunkKey × Entity)
  | [] => ([], [])
  | (ck, c) :: rest =>
      let p := processEntities sx sy sz wx wy wz shx shy shz c.block_entities
      let r := scanChunks sx sy sz wx wy wz shx shy shz rest
      ((ck, { c with block_entities := p.1 }) :: r.1, p.2 ++ r.2)

/-- Build `self.entities` (a defaultdict of lists) from the staged
`(destination chunk key, record)` pairs, in staging order. -/
def buildEntities (staged : List (ChunkKey × Entity)) : List (ChunkKey × List Entity) :=
  staged.foldl (fun m p => addToListMap m p.1 p.2) []

/-- Repetition pass over the staged entities: keep each primary copy and
add, per repetition offset, a translated copy staged under its
recomputed destination chunk key. -/
def applyRepetitions (reps : List (Int × Int × Int))
    (m : List (ChunkKey × List Entity)) : List (ChunkKey × List Entity) :=
  m.foldl
    (fun acc p =>
      p.2.foldl
        (fun acc ent =>
          let acc1 := addToListMap acc p.1 ent
          reps.foldl
            (fun acc rp =>
              let ent' : Entity := { ent with x := ent.x + rp.1, y := ent.y + rp.2.1, z := ent.z + rp.2.2 }
              addToListMap acc (entityKey ent'.x ent'.y ent'.z) ent')
            acc1)
        acc)
    []

/-- Embedding of `Editor.copy_blocks(source, dest, size, rep, world_source)`.  The
`world_source` argument names another world; the code then builds a fresh
`Editor` session over it, so it is modelled as the other world's data. -/
def Editor.copy_blocks (e : Editor) (source dest size : Int × Int × Int)
    (rep : Option (List (Int × Int × Int))) (world_source : Option WorldData) :
    Editor × List Event :=
  let sx := source.1; let sy := source.2.1; let sz := source.2.2
  let tx := dest.1; let ty := dest.2.1; let tz := dest.2.2
  let wx := size.1; let wy := size.2.1; let wz := size.2.2
  match world_source with
  | none =>
      let r := (offsets wx wy wz).foldl (copySameStep sx sy sz tx ty tz rep) (e, [])
      let sc := scanChunks sx sy sz wx wy wz (tx - sx) (ty - sy) (tz - sz) r.1.chunks
      let ents := buildEntities sc.2
      let ents2 := if repTruthy rep then applyRepetitions (rep.getD []) ents else ents
      ({ r.1 with chunks := sc.1, entities := ents2 }, r.2)
  | some w =>
      let r := (offsets wx wy wz).foldl (copyOtherStep sx sy sz tx ty tz rep)
        (e, Editor.init w, [])
      let sc := scanChunks sx sy sz wx wy wz (tx - sx) (ty - sy) (tz - sz) r.2.1.chunks
      let ents := buildEntities sc.2
      let ents2 := if repTruthy rep then applyRepetitions (rep.getD []) ents else ents
      ({ r.1 with entities := ents2 }, r.2.2)

/-! ### Commit (`Editor.done`) -/

/-- Apply a buffered update list to a write-side section in insertion
order (`for update in updates: ...set_block(*update)`). -/
def applyUpdates (s : Section) (l : List (Block × Nat)) : Section :=
  l.foldl (fun s u => s.set_block u.1 u.2) s

/-- One iteration of the first `done` loop: ensure a write-side section
exists for the address (pulled through the read path on first need),
apply the buffered updates to it, and record the touched
`(chunk_coord, ylevel)` under its region. -/
def doneStep (acc : Editor × List (Coord2 × List (Coord2 × Int)) × List Event)
    (entry : SectionId × List (Block × Nat)) :
    Editor × List (Coord2 × List (Coord2 × Int)) × List Event :=
  let e := acc.1
  let sid := entry.1
  let r1 :=
    match lookupA e.write_sections sid with
    | some _ => (e, ([] : List Event))
    | none =>
        let r := e.get_section sid
        ({ r.2.1 with write_sections := setA r.2.1.write_sections sid r.1 }, r.2.2)
  let ws := (lookupA r1.1.write_sections sid).getD emptySection
  let e2 := { r1.1 with write_sections := setA r1.1.write_sections sid (applyUpdates ws entry.2) }
  (e2, addToListMap acc.2.1 sid.1 sid.2, acc.2.2 ++ r1.2)

/-- Group a region's touched `(chunk_coord, ylevel)` pairs by chunk
(the `chunks` dict built per region in `done`). -/
def regionChunks (lst : List (Coord2 × Int)) : List (Coord2 × List Int) :=
  lst.foldl (fun m p => addToListMap m p.1 p.2) []

/-- Group every pending-write address by region
(the `regions` dict built by the first `done` loop). -/
def groupRegions (bm : List (SectionId × List (Block × Nat))) :
    List (Coord2 × List (Coord2 × Int)) :=
  bm.foldl (fun regs ent => addToListMap regs ent.1.1 ent.1.2) []

/-- Storage events of one region's turn in the second `done` loop: read
each touched chunk, replace its touched sections with the write-side
sections' payloads, merge the entities staged for that chunk into its
byte-stream, and finish with the region's single write call carrying the
fully materialized chunk map. -/
def doneRegion (e : Editor) (rc : Coord2) (lst : List (Coord2 × Int)) : List Event :=
  let chunks := regionChunks lst
  let updated := chunks.map fun p =>
    let ents := (lookupA e.entities (rc, p.1)).getD []
    let chunk := p.2.foldl
      (fun ch yl =>
        ch.set_section yl (((lookupA e.write_sections (rc, p.1, yl)).getD emptySection).get_nbt))
      (e.world rc p.1)
    (p.1, chunk.get_bytes ents)
  chunks.map (fun p => Event.readChunk rc p.1) ++ [Event.write rc updated]

/-- Embedding of `Editor.done`: apply every buffered write to write-side sections,
then write each touched region once. -/
def Editor.done (e : Editor) : Editor × List Event :=
  let r := e.blocks_map.foldl doneStep (e, [], [])
  (r.1, r.2.2 ++ r.2.1.flatMap fun p => doneRegion r.1 p.1 p.2)

/-! ### Concrete worlds for counterexamples and witnesses -/

/-- A block-entity record sitting at the origin. -/
def entChest : Entity := ⟨0, 0, 0, "chest", 0⟩

/-- Every section filled with block 7; one entity at the origin. -/
def chunkW : Chunk := ⟨fun _ => ⟨fun _ => 7⟩, [entChest]⟩

/-- A world whose every chunk is `chunkW`. -/
def worldW : WorldData := fun _ _ => chunkW

/-- A fresh session over `worldW`. -/
def edW : Editor := Editor.init worldW

/-- A session with a single buffered write at the origin. -/
def edW6 : Editor := (Editor.init worldW).set_block 5 0 0 0

/-! ### Basic lemmas about the read path -/

theorem get_section_fst (e : Editor) (sid : SectionId) :
    (e.get_section sid).1 =
      match lookupA e.chunks (sid.1, sid.2.1) with
      | some c => c.get_section sid.2.2
      | none => (e.world sid.1 sid.2.1).get_section sid.2.2 := by
  cases h : lookupA e.chunks (sid.1, sid.2.1) <;> simp [Editor.get_section, h]

theorem get_block_fst (e : Editor) (x y z : Int) :
    (e.get_block x y z).1 =
      match lookupA e.sections (sidOf x y z) with
      | some s => s.get_block (idxOf x y z)
      | none => (e.get_section (sidOf x y z)).1.get_block (idxOf x y z) := by
  cases h : lookupA e.sections (sidOf x y z) <;> simp [Editor.get_block, h]

/-- The value returned by `get_block` depends only on the world, the
read-side section cache, and the chunk cache up to entries that agree
with the world. -/
theorem get_block_val_eq_of (e e' : Editor) (hw : e'.world = e.world)
    (hs : e'.sections = e.sections)
    (hc : ∀ k, lookupA e'.chunks k = lookupA e.chunks k ∨
          (lookupA e.chunks k = none ∧ lookupA e'.chunks k = some (e.world k.1 k.2))) :
    ∀ x y z : Int, (e'.get_block x y z).1 = (e.get_block x y z).1 := by
  intro x y z
  rw [get_block_fst, get_block_fst, hs]
  cases h : lookupA e.sections (sidOf x y z) with
  | some s => rfl
  | none =>
      rw [get_section_fst, get_section_fst, hw]
      rcases hc ((sidOf x y z).1, (sidOf x y z).2.1) with hceq | ⟨h0, h1⟩
      · rw [hceq]
      · rw [h0, h1]

/-! ### Claim theorems -/

/-- C1: evaluation of `copy_blocks` at the failing input
`copy((0,0,0) -> (0,0,16), size (1,1,1), repetitions [(16,0,0)])` over a
world with a block-entity at the origin: the voxel is buffered only at
the repetition destination `(16,0,16)` (chunk `((0,0),(1,1))`), never at
the base destination `(0,0,16)` (chunk `((0,0),(0,1))`), while the
entity is staged twice — at the base destination chunk and at the
repetition chunk. -/
theorem copy_repetition_base_write_missing_eval :
    ((edW.copy_blocks (0,0,0) (0,0,16) (1,1,1) (some [(16,0,0)]) none).1.blocks_map
      = [(((0,0), (1,1), 0), [(7, 0)])])
  ∧ lookupA (edW.copy_blocks (0,0,0) (0,0,16) (1,1,1) (some [(16,0,0)]) none).1.blocks_map
      ((0,0), (0,1), 0) = none
  ∧ lookupA (edW.copy_blocks (0,0,0) (0,0,16) (1,1,1) (some [(16,0,0)]) none).1.entities
      ((0,0), (0,1)) = some [⟨0, 0, 16, "chest", 0⟩]
  ∧ lookupA (edW.copy_blocks (0,0,0) (0,0,16) (1,1,1) (some [(16,0,0)]) none).1.entities
      ((0,0), (1,1)) = some [⟨16, 0, 16, "chest", 0⟩] := by
  decide

/-- C3 counterexample: after `copy((0,0,0) -> (0,0,16), size (1,1,1))`
within one session, the source chunk's cached metadata record has been
moved to `(0,0,16)` — it is not the unchanged original `entChest`. -/
theorem copy_mutates_source_chunk_metadata :
    ((lookupA (edW.copy_blocks (0,0,0) (0,0,16) (1,1,1) none none).1.chunks
        ((0,0), (0,0))).map Chunk.block_entities = some [⟨0, 0, 16, "chest", 0⟩])
  ∧ (⟨0, 0, 16, "chest", 0⟩ : Entity) ≠ entChest := by
  decide

/-- C4 counterexample: the entity staged under destination chunk
`((0,0),(0,1))` by a first copy is gone after a second, disjoint copy —
each `copy_blocks` call resets the staged-metadata map. -/
theorem copy_discards_previously_staged_metadata :
    (lookupA (edW.copy_blocks (0,0,0) (0,0,16) (1,1,1) none none).1.entities
      ((0,0), (0,1)) = some [⟨0, 0, 16, "chest", 0⟩])
  ∧ lookupA ((edW.copy_blocks (0,0,0) (0,0,16) (1,1,1) none none).1.copy_blocks
      (100,0,100) (200,0,200) (1,1,1) none none).1.entities ((0,0), (0,1)) = none := by
  decide

/-- C5: `set_block` only appends to the pending buffer — the read-side
section cache, the chunk cache and the write-side cache are untouched,
and the value returned by `get_block` at any coordinate is unchanged, so
buffered writes are invisible to reads before commit. -/
theorem set_block_invisible_to_reads (e : Editor) (v : Block)
    (x y z x' y' z' : Int) :
    (e.set_block v x y z).sections = e.sections
  ∧ (e.set_block v x y z).chunks = e.chunks
  ∧ (e.set_block v x y z).write_sections = e.write_sections
  ∧ (e.set_block v x y z).entities = e.entities
  ∧ ((e.set_block v x y z).get_block x' y' z').1 = (e.get_block x' y' z').1 :=
  ⟨rfl, rfl, rfl, rfl,
   get_block_val_eq_of e (e.set_block v x y z) rfl rfl (fun _ => Or.inl rfl) x' y' z'⟩

/-- C9: decomposing any absolute coordinate — negative `x`/`z` included —
into `(region_coord, chunk_coord, ylevel, block_index)` and recomposing
the absolute position yields exactly the original coordinate. -/
theorem block_index_roundtrip (x y z : Int) :
    id_index_to_block (block_to_id_index x y z) = (x, y, z) := by
  simp only [block_to_id_index, id_index_to_block, Prod.mk.injEq]
  refine ⟨?_, ?_, ?_⟩ <;> omega

/-- Truthiness of `if rep:` treats an empty list like `None` in the voxel loop. -/
theorem copySameStep_some_nil (sx sy sz tx ty tz : Int) :
    copySameStep sx sy sz tx ty tz (some []) = copySameStep sx sy sz tx ty tz none := by
  funext acc d
  simp [copySameStep, repTruthy]

/-- Truthiness of `if rep:` treats an empty list like `None` in the cross-world voxel loop. -/
theorem copyOtherStep_some_nil (sx sy sz tx ty tz : Int) :
    copyOtherStep sx sy sz tx ty tz (some []) = copyOtherStep sx sy sz tx ty tz none := by
  funext acc d
  simp [copyOtherStep, repTruthy]

/-- C8: `copy_blocks` invoked with an empty repetitions list produces
exactly the same session state and storage events as the same call with
no repetitions argument, for same-world and cross-world copies alike. -/
theorem copy_empty_repetitions_like_none (e : Editor)
    (source dest size : Int × Int × Int) (ws : Option WorldData) :
    e.copy_blocks source dest size (some []) ws
      = e.copy_blocks source dest size none ws := by
  cases ws <;>
    simp [Editor.copy_blocks, copySameStep_some_nil, copyOtherStep_some_nil, repTruthy]

theorem lookupA_addToListMap_self {α β : Type} [DecidableEq α]
    (m : List (α × List β)) (k : α) (v : β) :
    lookupA (addToListMap m k v) k = some ((lookupA m k).getD [] ++ [v]) := by
  induction m with
  | nil => simp [addToListMap, lookupA]
  | cons p rest ih =>
      obtain ⟨k', l⟩ := p
      by_cases h : k = k'
      · subst h
        simp [addToListMap, lookupA]
      · simp [addToListMap, lookupA, h, ih]

theorem lookupA_addToListMap_other {α β : Type} [DecidableEq α]
    (m : List (α × List β)) (k k' : α) (v : β) (h : k' ≠ k) :
    lookupA (addToListMap m k v) k' = lookupA m k' := by
  induction m with
  | nil => simp [addToListMap, lookupA, h]
  | cons p rest ih =>
      obtain ⟨k'', l⟩ := p
      by_cases hk : k = k''
      · subst hk
        simp [addToListMap, lookupA, h]
      · simp only [addToListMap, if_neg hk, lookupA]
        by_cases hk' : k' = k''
        · simp [hk']
        · simp [hk', ih]

/-- Applying a list of `(block, index)` updates with `Section.set_block`
in order realizes last-write-wins per intra-section index. -/
theorem applyUpdates_last_wins (s : Section) (l : List (Block × Nat)) (i : Nat) :
    (applyUpdates s l).get_block i
      = l.foldl (fun acc u => if u.2 = i then u.1 else acc) (s.get_block i) := by
  induction l generalizing s with
  | nil => rfl
  | cons u rest ih =>
      show (applyUpdates (s.set_block u.1 u.2) rest).get_block i = _
      rw [ih]
      simp only [List.foldl_cons]
      congr 1
      by_cases h : u.2 = i
      · subst h
        simp [Section.set_block, Section.get_block]
      · have h' : ¬ i = u.2 := fun hh => h hh.symm
        simp [Section.set_block, Section.get_block, h, h']

/-- C7: `set_block` appends each write to the per-address list in the
pending buffer, and `done` applies such a list to the write-side section
in insertion order via `applyUpdates`, so per intra-section index the
last recorded write is the value that takes effect. -/
theorem pending_writes_append_only_last_wins (e : Editor) (v : Block)
    (x y z : Int) (s : Section) (l : List (Block × Nat)) (i : Nat) :
    lookupA (e.set_block v x y z).blocks_map (sidOf x y z)
      = some ((lookupA e.blocks_map (sidOf x y z)).getD [] ++ [(v, idxOf x y z)])
  ∧ (applyUpdates s l).get_block i
      = l.foldl (fun acc u => if u.2 = i then u.1 else acc) (s.get_block i) :=
  ⟨lookupA_addToListMap_self e.blocks_map (sidOf x y z) (v, idxOf x y z),
   applyUpdates_last_wins s l i⟩

theorem lookupA_setA {α β : Type} [DecidableEq α] (m : List (α × β)) (k k' : α) (v : β) :
    lookupA (setA m k v) k' = if k' = k then some v else lookupA m k' := by
  induction m with
  | nil => simp [setA, lookupA]
  | cons p rest ih =>
      obtain ⟨k'', w⟩ := p
      by_cases h1 : k = k''
      · subst h1
        by_cases h2 : k' = k <;> simp [setA, lookupA, h2]
      · by_cases h2 : k' = k''
        · subst h2
          have hne : ¬ k' = k := fun hh => h1 hh.symm
          simp [setA, lookupA, h1, hne]
        · simp [setA, lookupA, h1, h2, ih]

/-- Agreement of a state's chunk cache with a base state: every entry is
either the base's entry or a fresh decode of the base's world. -/
def chunksCoherent (e0 e : Editor) : Prop :=
  ∀ k : ChunkKey, lookupA e.chunks k = lookupA e0.chunks k ∨
    (lookupA e0.chunks k = none ∧ lookupA e.chunks k = some (e0.world k.1 k.2))

/-- Per-field effect of one first-loop iteration of `done`: only the
write-side cache and (on a miss) the chunk cache change; the chunk cache
gains only the decoded chunk of the current world. -/
theorem doneStep_fields (acc : Editor × List (Coord2 × List (Coord2 × Int)) × List Event)
    (entry : SectionId × List (Block × Nat)) :
    (doneStep acc entry).1.world = acc.1.world
  ∧ (doneStep acc entry).1.sections = acc.1.sections
  ∧ (doneStep acc entry).1.blocks_map = acc.1.blocks_map
  ∧ (doneStep acc entry).1.entities = acc.1.entities
  ∧ ((doneStep acc entry).1.chunks = acc.1.chunks
     ∨ (lookupA acc.1.chunks (entry.1.1, entry.1.2.1) = none
        ∧ (doneStep acc entry).1.chunks
            = setA acc.1.chunks (entry.1.1, entry.1.2.1)
                (acc.1.world entry.1.1 entry.1.2.1))) := by
  cases h1 : lookupA acc.1.write_sections entry.1 with
  | some s => simp [doneStep, h1]
  | none =>
      cases h2 : lookupA acc.1.chunks (entry.1.1, entry.1.2.1) with
      | some c => simp [doneStep, Editor.get_section, h1, h2]
      | none => simp [doneStep, Editor.get_section, h1, h2]

theorem doneFold_inv (l : List (SectionId × List (Block × Nat))) :
    ∀ (acc : Editor × List (Coord2 × List (Coord2 × Int)) × List Event) (e0 : Editor),
    acc.1.world = e0.world → acc.1.sections = e0.sections →
    acc.1.blocks_map = e0.blocks_map → acc.1.entities = e0.entities →
    chunksCoherent e0 acc.1 →
    ((l.foldl doneStep acc).1.world = e0.world
    ∧ (l.foldl doneStep acc).1.sections = e0.sections
    ∧ (l.foldl doneStep acc).1.blocks_map = e0.blocks_map
    ∧ (l.foldl doneStep acc).1.entities = e0.entities
    ∧ chunksCoherent e0 (l.foldl doneStep acc).1) := by
  induction l with
  | nil => exact fun acc e0 h1 h2 h3 h4 h5 => ⟨h1, h2, h3, h4, h5⟩
  | cons entry rest ih =>
      intro acc e0 h1 h2 h3 h4 h5
      have hf := doneStep_fields acc entry
      simp only [List.foldl_cons]
      refine ih _ e0 (by rw [hf.1, h1]) (by rw [hf.2.1, h2]) (by rw [hf.2.2.1, h3])
        (by rw [hf.2.2.2.1, h4]) ?_
      rcases hf.2.2.2.2 with hch | ⟨hnone, hset⟩
      · intro k
        rw [hch]
        exact h5 k
      · intro k
        rw [hset, lookupA_setA]
        by_cases hk : k = (entry.1.1, entry.1.2.1)
        · subst hk
          rw [if_pos rfl]
          rcases h5 (entry.1.1, entry.1.2.1) with heq | ⟨h0, _⟩
          · exact Or.inr ⟨by rw [← heq, hnone], by rw [h1]⟩
          · exact Or.inr ⟨h0, by rw [h1]⟩
        · rw [if_neg hk]
          exact h5 k

/-- Commit never touches the world, the read-side section cache, the
pending buffer or the staged metadata; its chunk-cache entries agree
with the world where they are new. -/
theorem done_preserves (e : Editor) :
    (e.done).1.world = e.world
  ∧ (e.done).1.sections = e.sections
  ∧ (e.done).1.blocks_map = e.blocks_map
  ∧ (e.done).1.entities = e.entities
  ∧ chunksCoherent e (e.done).1 :=
  doneFold_inv e.blocks_map (e, [], []) e rfl rfl rfl rfl (fun _ => Or.inl rfl)

/-- C2: committing buffered writes is isolated from the read path — the
write-side sections built by `done` live apart from the read-side
section cache, which `done` leaves untouched, and the value `get_block`
returns for any coordinate is the same before and after the buffered
writes are applied. -/
theorem commit_isolated_from_read_cache (e : Editor) (x y z : Int) :
    (e.done).1.sections = e.sections
  ∧ ((e.done).1.get_block x y z).1 = (e.get_block x y z).1 :=
  ⟨(done_preserves e).2.1,
   get_block_val_eq_of e (e.done).1 (done_preserves e).1 (done_preserves e).2.1
     (done_preserves e).2.2.2.2 x y z⟩

theorem set_block_entities_override (e : Editor) (m : List (ChunkKey × List Entity))
    (v : Block) (x y z : Int) :
    ({ e with entities := m } : Editor).set_block v x y z
      = { e.set_block v x y z with entities := m } := rfl

theorem get_section_entities_override (e : Editor) (m : List (ChunkKey × List Entity))
    (sid : SectionId) :
    ({ e with entities := m } : Editor).get_section sid
      = ((e.get_section sid).1,
         { (e.get_section sid).2.1 with entities := m },
         (e.get_section sid).2.2) := by
  cases h : lookupA e.chunks (sid.1, sid.2.1) <;> simp [Editor.get_section, h]

theorem get_block_entities_override (e : Editor) (m : List (ChunkKey × List Entity))
    (x y z : Int) :
    ({ e with entities := m } : Editor).get_block x y z
      = ((e.get_block x y z).1,
         { (e.get_block x y z).2.1 with entities := m },
         (e.get_block x y z).2.2) := by
  cases h : lookupA e.sections (sidOf x y z) with
  | some s => simp [Editor.get_block, h]
  | none => simp [Editor.get_block, h, get_section_entities_override]

theorem foldl_entities_override {γ : Type} (g : Editor → γ → Editor)
    (hg : ∀ (e : Editor) (m : List (ChunkKey × List Entity)) (c : γ),
      g { e with entities := m } c = { g e c with entities := m }) :
    ∀ (l : List γ) (e : Editor) (m : List (ChunkKey × List Entity)),
    l.foldl g { e with entities := m } = { l.foldl g e with entities := m } := by
  intro l
  induction l with
  | nil => intro e m; rfl
  | cons c rest ih =>
      intro e m
      simp only [List.foldl_cons]
      rw [hg]
      exact ih _ m

theorem copySameStep_entities_override (sx sy sz tx ty tz : Int)
    (rep : Option (List (Int × Int × Int))) (acc : Editor × List Event)
    (m : List (ChunkKey × List Entity)) (d : Int × Int × Int) :
    copySameStep sx sy sz tx ty tz rep ({ acc.1 with entities := m }, acc.2) d
      = ({ (copySameStep sx sy sz tx ty tz rep acc d).1 with entities := m },
         (copySameStep sx sy sz tx ty tz rep acc d).2) := by
  by_cases h : repTruthy rep
  · simp only [copySameStep, h, if_true, get_block_entities_override]
    rw [foldl_entities_override]
    intro e' m' c
    exact set_block_entities_override e' m' _ _ _ _
  · simp [copySameStep, h, get_block_entities_override, set_block_entities_override]

theorem copyOtherStep_entities_override (sx sy sz tx ty tz : Int)
    (rep : Option (List (Int × Int × Int))) (acc : Editor × Editor × List Event)
    (m : List (ChunkKey × List Entity)) (d : Int × Int × Int) :
    copyOtherStep sx sy sz tx ty tz rep ({ acc.1 with entities := m }, acc.2.1, acc.2.2) d
      = ({ (copyOtherStep sx sy sz tx ty tz rep acc d).1 with entities := m },
         (copyOtherStep sx sy sz tx ty tz rep acc d).2.1,
         (copyOtherStep sx sy sz tx ty tz rep acc d).2.2) := by
  by_cases h : repTruthy rep
  · simp only [copyOtherStep, h, if_true]
    rw [foldl_entities_override]
    intro e' m' c
    exact set_block_entities_override e' m' _ _ _ _
  · simp [copyOtherStep, h, set_block_entities_override]

theorem copySameFold_entities_override (sx sy sz tx ty tz : Int)
    (rep : Option (List (Int × Int × Int))) (l : List (Int × Int × Int)) :
    ∀ (e : Editor) (m : List (ChunkKey × List Entity)) (tr : List Event),
    l.foldl (copySameStep sx sy sz tx ty tz rep) ({ e with entities := m }, tr)
      = ({ (l.foldl (copySameStep sx sy sz tx ty tz rep) (e, tr)).1 with entities := m },
         (l.foldl (copySameStep sx sy sz tx ty tz rep) (e, tr)).2) := by
  induction l with
  | nil => intro e m tr; rfl
  | cons d rest ih =>
      intro e m tr
      simp only [List.foldl_cons]
      rw [copySameStep_entities_override sx sy sz tx ty tz rep (e, tr) m d]
      exact ih _ m _

theorem copyOtherFold_entities_override (sx sy sz tx ty tz : Int)
    (rep : Option (List (Int × Int × Int))) (l : List (Int × Int × Int)) :
    ∀ (e se : Editor) (m : List (ChunkKey × List Entity)) (tr : List Event),
    l.foldl (copyOtherStep sx sy sz tx ty tz rep) ({ e with entities := m }, se, tr)
      = ({ (l.foldl (copyOtherStep sx sy sz tx ty tz rep) (e, se, tr)).1 with entities := m },
         (l.foldl (copyOtherStep sx sy sz tx ty tz rep) (e, se, tr)).2.1,
         (l.foldl (copyOtherStep sx sy sz tx ty tz rep) (e, se, tr)).2.2) := by
  induction l with
  | nil => intro e se m tr; rfl
  | cons d rest ih =>
      intro e se m tr
      simp only [List.foldl_cons]
      rw [copyOtherStep_entities_override sx sy sz tx ty tz rep (e, se, tr) m d]
      exact ih _ _ m _

/-- Copying neither reads nor keeps the staged-metadata map that
was in the session before the call: its result is the same whatever that
map held. -/
theorem copy_blocks_entities_override (e : Editor) (m : List (ChunkKey × List Entity))
    (source dest size : Int × Int × Int) (rep : Option (List (Int × Int × Int)))
    (ws : Option WorldData) :
    ({ e with entities := m } : Editor).copy_blocks source dest size rep ws
      = e.copy_blocks source dest size rep ws := by
  cases ws with
  | none =>
      simp only [Editor.copy_blocks]
      rw [copySameFold_entities_override]
  | some w =>
      simp only [Editor.copy_blocks]
      rw [copyOtherFold_entities_override]

/-- C4 amended: metadata staged by a copy survives until commit only if
no further copy intervenes — each `copy_blocks` call rebuilds the staged
map from scratch (its whole result is independent of the previously
staged map), while `done` leaves the staged map in place. -/
theorem copy_resets_staged_metadata (e : Editor) (m : List (ChunkKey × List Entity))
    (source dest size : Int × Int × Int) (rep : Option (List (Int × Int × Int)))
    (ws : Option WorldData) :
    ({ e with entities := m } : Editor).copy_blocks source dest size rep ws
      = e.copy_blocks source dest size rep ws
  ∧ (e.done).1.entities = e.entities :=
  ⟨copy_blocks_entities_override e m source dest size rep ws,
   (done_preserves e).2.2.2.1⟩

/-! ### Trace lemmas: writes happen only in `done` -/

theorem writesOf_append (a b : List Event) :
    writesOf (a ++ b) = writesOf a ++ writesOf b := by
  simp [writesOf]

theorem writesOf_get_section (e : Editor) (sid : SectionId) :
    writesOf (e.get_section sid).2.2 = [] := by
  cases h : lookupA e.chunks (sid.1, sid.2.1) <;>
    simp [Editor.get_section, h, writesOf]

theorem writesOf_get_block (e : Editor) (x y z : Int) :
    writesOf (e.get_block x y z).2.2 = [] := by
  cases h : lookupA e.sections (sidOf x y z) with
  | some s => simp [Editor.get_block, h, writesOf]
  | none => simp [Editor.get_block, h, writesOf_get_section]

theorem copySameStep_trace (sx sy sz tx ty tz : Int)
    (rep : Option (List (Int × Int × Int))) (acc : Editor × List Event)
    (d : Int × Int × Int) :
    (copySameStep sx sy sz tx ty tz rep acc d).2
      = acc.2 ++ (acc.1.get_block (sx + d.1) (sy + d.2.1) (sz + d.2.2)).2.2 := rfl

theorem copyOtherStep_trace (sx sy sz tx ty tz : Int)
    (rep : Option (List (Int × Int × Int))) (acc : Editor × Editor × List Event)
    (d : Int × Int × Int) :
    (copyOtherStep sx sy sz tx ty tz rep acc d).2.2
      = acc.2.2 ++ (acc.2.1.get_block (sx + d.1) (sy + d.2.1) (sz + d.2.2)).2.2 := rfl

theorem writesOf_copySameFold (sx sy sz tx ty tz : Int)
    (rep : Option (List (Int × Int × Int))) (l : List (Int × Int × Int)) :
    ∀ acc : Editor × List Event, writesOf acc.2 = [] →
      writesOf (l.foldl (copySameStep sx sy sz tx ty tz rep) acc).2 = [] := by
  induction l with
  | nil => exact fun acc h => h
  | cons d rest ih =>
      intro acc h
      simp only [List.foldl_cons]
      apply ih
      rw [copySameStep_trace, writesOf_append, h, writesOf_get_block]
      rfl

theorem writesOf_copyOtherFold (sx sy sz tx ty tz : Int)
    (rep : Option (List (Int × Int × Int))) (l : List (Int × Int × Int)) :
    ∀ acc : Editor × Editor × List Event, writesOf acc.2.2 = [] →
      writesOf (l.foldl (copyOtherStep sx sy sz tx ty tz rep) acc).2.2 = [] := by
  induction l with
  | nil => exact fun acc h => h
  | cons d rest ih =>
      intro acc h
      simp only [List.foldl_cons]
      apply ih
      rw [copyOtherStep_trace, writesOf_append, h, writesOf_get_block]
      rfl

/-- The copy engine performs no storage writes: its whole trace is reads. -/
theorem writesOf_copy_blocks (e : Editor) (source dest size : Int × Int × Int)
    (rep : Option (List (Int × Int × Int))) (ws : Option WorldData) :
    writesOf (e.copy_blocks source dest size rep ws).2 = [] := by
  cases ws with
  | none =>
      exact writesOf_copySameFold source.1 source.2.1 source.2.2
        dest.1 dest.2.1 dest.2.2 rep (offsets size.1 size.2.1 size.2.2) (e, []) rfl
  | some w =>
      exact writesOf_copyOtherFold source.1 source.2.1 source.2.2
        dest.1 dest.2.1 dest.2.2 rep (offsets size.1 size.2.1 size.2.2)
        (e, Editor.init w, []) rfl

theorem writesOf_doneFold (l : List (SectionId × List (Block × Nat))) :
    ∀ acc : Editor × List (Coord2 × List (Coord2 × Int)) × List Event,
      writesOf acc.2.2 = [] → writesOf (l.foldl doneStep acc).2.2 = [] := by
  induction l with
  | nil => exact fun acc h => h
  | cons entry rest ih =>
      intro acc h
      simp only [List.foldl_cons]
      apply ih
      have ht : (doneStep acc entry).2.2
          = acc.2.2 ++ (match lookupA acc.1.write_sections entry.1 with
            | some _ => ([] : List Event)
            | none => (acc.1.get_section entry.1).2.2) := by
        cases h1 : lookupA acc.1.write_sections entry.1 <;> simp [doneStep, h1]
      have h2 : writesOf (match lookupA acc.1.write_sections entry.1 with
          | some _ => ([] : List Event)
          | none => (acc.1.get_section entry.1).2.2) = [] := by
        cases lookupA acc.1.write_sections entry.1
        · exact writesOf_get_section _ _
        · rfl
      rw [ht, writesOf_append, h, h2]
      rfl

theorem writesOf_readChunks (rc : Coord2) (l : List (Coord2 × List Int)) :
    writesOf (l.map fun p => Event.readChunk rc p.1) = [] := by
  induction l with
  | nil => rfl
  | cons p rest ih => exact ih

theorem writesOf_doneRegion_fst (e : Editor) (rc : Coord2)
    (lst : List (Coord2 × Int)) :
    (writesOf (doneRegion e rc lst)).map Prod.fst = [rc] := by
  have h : writesOf (doneRegion e rc lst)
      = writesOf ((regionChunks lst).map fun p => Event.readChunk rc p.1)
        ++ writesOf [Event.write rc ((regionChunks lst).map fun p =>
            (p.1, (p.2.foldl (fun ch yl => ch.set_section yl
              (((lookupA e.write_sections (rc, p.1, yl)).getD emptySection).get_nbt))
              (e.world rc p.1)).get_bytes ((lookupA e.entities (rc, p.1)).getD [])))] :=
    writesOf_append _ _
  rw [h, writesOf_readChunks]
  rfl

theorem writesOf_flatMap_doneRegion (e1 : Editor)
    (regions : List (Coord2 × List (Coord2 × Int))) :
    (writesOf (regions.flatMap fun p => doneRegion e1 p.1 p.2)).map Prod.fst
      = regions.map Prod.fst := by
  induction regions with
  | nil => rfl
  | cons p rest ih =>
      rw [List.flatMap_cons, writesOf_append, List.map_append, ih]
      have h := writesOf_doneRegion_fst e1 p.1 p.2
      rw [h]
      rfl

theorem doneFold_regions (l : List (SectionId × List (Block × Nat))) :
    ∀ acc : Editor × List (Coord2 × List (Coord2 × Int)) × List Event,
    (l.foldl doneStep acc).2.1
      = l.foldl (fun regs ent => addToListMap regs ent.1.1 ent.1.2) acc.2.1 := by
  induction l with
  | nil => intro acc; rfl
  | cons entry rest ih =>
      intro acc
      simp only [List.foldl_cons]
      rw [ih]
      rfl

theorem addToListMap_keys {α β : Type} [DecidableEq α]
    (m : List (α × List β)) (k : α) (v : β) :
    (addToListMap m k v).map Prod.fst
      = if k ∈ m.map Prod.fst then m.map Prod.fst else m.map Prod.fst ++ [k] := by
  induction m with
  | nil => simp [addToListMap]
  | cons p rest ih =>
      obtain ⟨k', l⟩ := p
      by_cases h : k = k'
      · subst h
        simp [addToListMap]
      · by_cases h2 : k ∈ rest.map Prod.fst <;>
          simp [addToListMap, h, ih, h2]

theorem foldl_addToListMap_mem {α β γ : Type} [DecidableEq α]
    (keyfn : γ → α) (valfn : γ → β) (l : List γ) :
    ∀ (m : List (α × List β)) (a : α),
    a ∈ ((l.foldl (fun acc c => addToListMap acc (keyfn c) (valfn c)) m).map Prod.fst)
      ↔ a ∈ m.map Prod.fst ∨ a ∈ l.map keyfn := by
  induction l with
  | nil => intro m a; simp
  | cons c rest ih =>
      intro m a
      simp only [List.foldl_cons, List.map_cons, List.mem_cons]
      rw [ih]
      rw [addToListMap_keys]
      by_cases h : keyfn c ∈ m.map Prod.fst
      · rw [if_pos h]
        constructor
        · rintro (h' | h')
          · exact Or.inl h'
          · exact Or.inr (Or.inr h')
        · rintro (h' | h' | h')
          · exact Or.inl h'
          · exact Or.inl (by rw [h']; exact h)
          · exact Or.inr h'
      · rw [if_neg h]
        simp only [List.mem_append, List.mem_singleton]
        tauto

theorem foldl_addToListMap_nodup {α β γ : Type} [DecidableEq α]
    (keyfn : γ → α) (valfn : γ → β) (l : List γ) :
    ∀ m : List (α × List β), (m.map Prod.fst).Nodup →
    ((l.foldl (fun acc c => addToListMap acc (keyfn c) (valfn c)) m).map Prod.fst).Nodup := by
  induction l with
  | nil => exact fun m h => h
  | cons c rest ih =>
      intro m h
      simp only [List.foldl_cons]
      apply ih
      rw [addToListMap_keys]
      by_cases hm : keyfn c ∈ m.map Prod.fst
      · rw [if_pos hm]
        exact h
      · rw [if_neg hm]
        simp [List.nodup_append, h, hm]

theorem done_trace (e : Editor) :
    (e.done).2 = (e.blocks_map.foldl doneStep (e, [], [])).2.2
      ++ (e.blocks_map.foldl doneStep (e, [], [])).2.1.flatMap
          (fun p => doneRegion (e.blocks_map.foldl doneStep (e, [], [])).1 p.1 p.2) := rfl

/-- The regions written by `done` are exactly the grouped regions of the
pending buffer, in first-occurrence order. -/
theorem done_writes_regions (e : Editor) :
    (writesOf (e.done).2).map Prod.fst = (groupRegions e.blocks_map).map Prod.fst := by
  rw [done_trace, writesOf_append, writesOf_doneFold e.blocks_map (e, [], []) rfl,
    List.nil_append, writesOf_flatMap_doneRegion,
    doneFold_regions e.blocks_map (e, [], [])]
  rfl

/-- C6: `get_block` and `copy_blocks` issue no storage writes
(`set_block` touches no storage at all — it returns only an updated
session state); `done` issues exactly one write call per region that has
at least one pending write — its write events name exactly the distinct
regions of the pending buffer, each once, in first-occurrence order —
and no write for any other region; each write event carries the region's
fully materialized chunk map. -/
theorem commit_sole_storage_writer (e : Editor) (x y z : Int)
    (source dest size : Int × Int × Int) (rep : Option (List (Int × Int × Int)))
    (ws : Option WorldData) :
    writesOf (e.get_block x y z).2.2 = []
  ∧ writesOf (e.copy_blocks source dest size rep ws).2 = []
  ∧ (writesOf (e.done).2).map Prod.fst = (groupRegions e.blocks_map).map Prod.fst
  ∧ ((groupRegions e.blocks_map).map Prod.fst).Nodup
  ∧ (∀ rc : Coord2, rc ∈ (groupRegions e.blocks_map).map Prod.fst
      ↔ rc ∈ e.blocks_map.map (fun p => p.1.1)) := by
  refine ⟨writesOf_get_block e x y z, writesOf_copy_blocks e source dest size rep ws,
    done_writes_regions e, ?_, ?_⟩
  · exact foldl_addToListMap_nodup (fun ent => ent.1.1) (fun ent => ent.1.2)
      e.blocks_map [] (by simp)
  · intro rc
    have h := foldl_addToListMap_mem
      (fun ent : SectionId × List (Block × Nat) => ent.1.1)
      (fun ent => ent.1.2) e.blocks_map [] rc
    simpa using h

/-- Concrete check of the single-write-per-touched-region law on a
session with one pending write in region `(0,0)`. -/
theorem commit_sole_storage_writer_witness :
    (writesOf (edW6.done).2).map Prod.fst = [((0 : Int), (0 : Int))] := by
  have h := commit_sole_storage_writer edW6 0 0 0 (0, 0, 0) (0, 0, 0) (0, 0, 0) none none
  rw [h.2.2.1]
  decide

theorem lookupA_mem {α β : Type} [DecidableEq α] (m : List (α × β)) (k : α) (v : β)
    (h : lookupA m k = some v) : (k, v) ∈ m := by
  induction m with
  | nil => simp [lookupA] at h
  | cons p rest ih =>
      obtain ⟨k', w⟩ := p
      by_cases hk : k = k'
      · subst hk
        simp [lookupA] at h
        subst h
        exact List.mem_cons_self _ _
      · simp only [lookupA, if_neg hk] at h
        exact List.mem_cons_of_mem _ (ih h)

theorem addToListMap_inv {α β : Type} [DecidableEq α] {P : α → β → Prop}
    (m : List (α × List β)) (k : α) (v : β)
    (hm : ∀ pr ∈ m, ∀ b ∈ pr.2, P pr.1 b) (hv : P k v) :
    ∀ pr ∈ addToListMap m k v, ∀ b ∈ pr.2, P pr.1 b := by
  induction m with
  | nil =>
      intro pr hpr b hb
      simp only [addToListMap, List.mem_singleton] at hpr
      subst hpr
      simp only [List.mem_singleton] at hb
      subst hb
      exact hv
  | cons p rest ih =>
      obtain ⟨k', l⟩ := p
      by_cases hk : k = k'
      · subst hk
        intro pr hpr b hb
        simp only [addToListMap, if_pos rfl] at hpr
        rcases List.mem_cons.mp hpr with h | h
        · subst h
          rcases List.mem_append.mp hb with hb' | hb'
          · exact hm (k, l) (List.mem_cons_self _ _) b hb'
          · simp only [List.mem_singleton] at hb'
            subst hb'
            exact hv
        · exact hm pr (List.mem_cons_of_mem _ h) b hb
      · intro pr hpr b hb
        simp only [addToListMap, if_neg hk] at hpr
        rcases List.mem_cons.mp hpr with h | h
        · subst h
          exact hm (k', l) (List.mem_cons_self _ _) b hb
        · exact ih (fun pr h' => hm pr (List.mem_cons_of_mem _ h')) pr h b hb

theorem foldl_addToListMap_inv {α β γ : Type} [DecidableEq α] {P : α → β → Prop}
    (keyfn : γ → α) (valfn : γ → β) (l : List γ) :
    ∀ m : List (α × List β), (∀ pr ∈ m, ∀ b ∈ pr.2, P pr.1 b) →
    (∀ c ∈ l, P (keyfn c) (valfn c)) →
    ∀ pr ∈ l.foldl (fun acc c => addToListMap acc (keyfn c) (valfn c)) m,
      ∀ b ∈ pr.2, P pr.1 b := by
  induction l with
  | nil => intro m hm _ pr hpr; exact hm pr hpr
  | cons c rest ih =>
      intro m hm hl
      simp only [List.foldl_cons]
      exact ih _ (addToListMap_inv m (keyfn c) (valfn c) hm (hl c (List.mem_cons_self _ _)))
        (fun c' h => hl c' (List.mem_cons_of_mem _ h))

theorem addToListMap_ne_nil {α β : Type} [DecidableEq α]
    (m : List (α × List β)) (k : α) (v : β)
    (hm : ∀ pr ∈ m, pr.2 ≠ ([] : List β)) :
    ∀ pr ∈ addToListMap m k v, pr.2 ≠ [] := by
  induction m with
  | nil =>
      intro pr hpr
      simp only [addToListMap, List.mem_singleton] at hpr
      subst hpr
      simp
  | cons p rest ih =>
      obtain ⟨k', l⟩ := p
      by_cases hk : k = k'
      · subst hk
        intro pr hpr
        simp only [addToListMap, if_pos rfl] at hpr
        rcases List.mem_cons.mp hpr with h | h
        · subst h; simp
        · exact hm pr (List.mem_cons_of_mem _ h)
      · intro pr hpr
        simp only [addToListMap, if_neg hk] at hpr
        rcases List.mem_cons.mp hpr with h | h
        · subst h
          exact hm (k', l) (List.mem_cons_self _ _)
        · exact ih (fun pr h' => hm pr (List.mem_cons_of_mem _ h')) pr h

theorem foldl_addToListMap_ne_nil {α β γ : Type} [DecidableEq α]
    (keyfn : γ → α) (valfn : γ → β) (l : List γ) :
    ∀ m : List (α × List β), (∀ pr ∈ m, pr.2 ≠ ([] : List β)) →
    ∀ pr ∈ l.foldl (fun acc c => addToListMap acc (keyfn c) (valfn c)) m, pr.2 ≠ [] := by
  induction l with
  | nil => intro m hm pr hpr; exact hm pr hpr
  | cons c rest ih =>
      intro m hm
      simp only [List.foldl_cons]
      exact ih _ (addToListMap_ne_nil m (keyfn c) (valfn c) hm)

theorem write_mem_writesOf (tr : List Event) (rc : Coord2)
    (cm : List (Coord2 × Bytes)) (h : Event.write rc cm ∈ tr) :
    (rc, cm) ∈ writesOf tr := by
  induction tr with
  | nil => simp at h
  | cons ev rest ih =>
      rcases List.mem_cons.mp h with h' | h'
      · subst h'
        simp [writesOf, List.filterMap_cons]
      · cases ev with
        | readChunk a b =>
            rw [show writesOf (Event.readChunk a b :: rest) = writesOf rest from rfl]
            exact ih h'
        | write a b =>
            rw [show writesOf (Event.write a b :: rest) = (a, b) :: writesOf rest from rfl]
            exact List.mem_cons_of_mem _ (ih h')

theorem write_not_mem_readChunks (rc rc' : Coord2) (cm : List (Coord2 × Bytes))
    (l : List (Coord2 × List Int)) :
    Event.write rc cm ∉ (l.map fun p => Event.readChunk rc' p.1) := by
  intro h
  rcases List.mem_map.mp h with ⟨p, _, hp⟩
  exact Event.noConfusion hp

/-- C10: with an empty pending buffer, `done` performs no storage event
at all and returns the session state unchanged; moreover every chunk
appearing in a write call issued by `done` has at least one buffered
block write, so staged metadata whose destination chunk has no pending
block write is never part of any persisted chunk map. -/
theorem commit_empty_noop_and_metadata_gating (e : Editor) :
    (e.blocks_map = [] → e.done = (e, []))
  ∧ (∀ (rc : Coord2) (cm : List (Coord2 × Bytes)), Event.write rc cm ∈ (e.done).2 →
      ∀ (cc : Coord2) (b : Bytes), (cc, b) ∈ cm →
        ∃ yl : Int, (rc, cc, yl) ∈ e.blocks_map.map Prod.fst) := by
  constructor
  · intro h
    simp [Editor.done, h]
  · intro rc cm hev cc b hcb
    rw [done_trace] at hev
    rcases List.mem_append.mp hev with h1 | h2
    · have hmem := write_mem_writesOf _ rc cm h1
      rw [writesOf_doneFold e.blocks_map (e, [], []) rfl] at hmem
      simp at hmem
    · rcases List.mem_flatMap.mp h2 with ⟨p, hp, hin⟩
      rcases List.mem_append.mp hin with hr | hw
      · exact absurd hr (write_not_mem_readChunks rc p.1 cm (regionChunks p.2))
      · simp only [List.mem_singleton] at hw
        injection hw with hrc hcm
        subst hrc
        subst hcm
        rcases List.mem_map.mp hcb with ⟨q, hq, hqe⟩
        have hcc : q.1 = cc := congrArg Prod.fst hqe
        have hnn := foldl_addToListMap_ne_nil Prod.fst Prod.snd p.2 [] (by simp) q hq
        obtain ⟨yl, hyl⟩ := List.exists_mem_of_ne_nil q.2 hnn
        have hq2 := foldl_addToListMap_inv (P := fun cc' yl' => (cc', yl') ∈ p.2)
          Prod.fst Prod.snd p.2 [] (by simp) (fun c hc => hc) q hq yl hyl
        have hreg : p ∈ groupRegions e.blocks_map := by
          rw [doneFold_regions e.blocks_map (e, [], [])] at hp
          exact hp
        have hbm := foldl_addToListMap_inv
          (P := fun rc' pr => (rc', pr) ∈ e.blocks_map.map Prod.fst)
          (fun ent : SectionId × List (Block × Nat) => ent.1.1) (fun ent => ent.1.2)
          e.blocks_map [] (by simp)
          (fun ent hent => List.mem_map_of_mem Prod.fst hent) p hreg (q.1, yl) hq2
        refine ⟨yl, ?_⟩
        rw [hcc] at hbm
        exact hbm

/-- Concrete check: an empty buffer commits to nothing, and the one
chunk written for `edW6` is the chunk of its single pending write. -/
theorem commit_empty_noop_and_metadata_gating_witness :
    (Editor.init worldW).done = (Editor.init worldW, [])
  ∧ ∃ yl : Int, (((0 : Int), (0 : Int)), ((0 : Int), (0 : Int)), yl)
      ∈ edW6.blocks_map.map Prod.fst := by
  constructor
  · exact (commit_empty_noop_and_metadata_gating (Editor.init worldW)).1 rfl
  · exact (commit_empty_noop_and_metadata_gating edW6).2 (0, 0) _
      (.tail _ (.tail _ (.head _))) (0, 0) _ (.head _)

theorem processEntities_staged (sx sy sz wx wy wz shx shy shz : Int)
    (l : List Entity) :
    ∀ pr ∈ (processEntities sx sy sz wx wy wz shx shy shz l).2,
      pr.2 ∈ (processEntities sx sy sz wx wy wz shx shy shz l).1 := by
  induction l with
  | nil => simp [processEntities]
  | cons ent rest ih =>
      intro pr hpr
      by_cases h : sx ≤ ent.x ∧ ent.x < sx + wx ∧ sy ≤ ent.y ∧ ent.y < sy + wy ∧
          sz ≤ ent.z ∧ ent.z < sz + wz
      · simp only [processEntities, if_pos h] at hpr ⊢
        rcases List.mem_cons.mp hpr with h' | h'
        · rw [h']
          exact List.mem_cons_self _ _
        · exact List.mem_cons_of_mem _ (ih pr h')
      · simp only [processEntities, if_neg h] at hpr ⊢
        exact List.mem_cons_of_mem _ (ih pr hpr)

theorem scanChunks_staged (sx sy sz wx wy wz shx shy shz : Int)
    (l : List (ChunkKey × Chunk)) :
    ∀ pr ∈ (scanChunks sx sy sz wx wy wz shx shy shz l).2,
      ∃ (ck : ChunkKey) (c : Chunk),
        (ck, c) ∈ (scanChunks sx sy sz wx wy wz shx shy shz l).1
        ∧ pr.2 ∈ c.block_entities := by
  induction l with
  | nil => simp [scanChunks]
  | cons p rest ih =>
      obtain ⟨ck, c⟩ := p
      intro pr hpr
      simp only [scanChunks] at hpr ⊢
      rcases List.mem_append.mp hpr with h | h
      · exact ⟨ck, { c with block_entities :=
            (processEntities sx sy sz wx wy wz shx shy shz c.block_entities).1 },
          List.mem_cons_self _ _,
          processEntities_staged sx sy sz wx wy wz shx shy shz c.block_entities pr h⟩
      · obtain ⟨ck', c', hmem, hent⟩ := ih pr h
        exact ⟨ck', c', List.mem_cons_of_mem _ hmem, hent⟩

theorem buildEntities_mem (staged : List (ChunkKey × Entity)) (k : ChunkKey)
    (l : List Entity) (ent : Entity) (hl : lookupA (buildEntities staged) k = some l)
    (hent : ent ∈ l) : (k, ent) ∈ staged := by
  have hinv := foldl_addToListMap_inv (P := fun k' ent' => (k', ent') ∈ staged)
    Prod.fst Prod.snd staged [] (by simp) (fun c h => h)
  exact hinv (k, l) (lookupA_mem _ _ _ hl) ent hent

/-- C3 amended: a copy never writes to storage, but source metadata is
not preserved either — the primary relocation translates each matching
record in place in the cached source chunk (deep copies are made only
for repetition copies), so every record staged by a same-world copy with
no repetitions is literally present, already translated, in the
session's cached chunk data. -/
theorem copy_translates_metadata_in_place (e : Editor)
    (source dest size : Int × Int × Int) :
    writesOf (e.copy_blocks source dest size none none).2 = []
  ∧ ∀ (k : ChunkKey) (l : List Entity) (ent : Entity),
      lookupA (e.copy_blocks source dest size none none).1.entities k = some l →
      ent ∈ l →
      ∃ (ck : ChunkKey) (c : Chunk),
        (ck, c) ∈ (e.copy_blocks source dest size none none).1.chunks
        ∧ ent ∈ c.block_entities := by
  constructor
  · exact writesOf_copy_blocks e source dest size none none
  · intro k l ent hlk hent
    have hstaged : (k, ent) ∈ (scanChunks source.1 source.2.1 source.2.2
        size.1 size.2.1 size.2.2
        (dest.1 - source.1) (dest.2.1 - source.2.1) (dest.2.2 - source.2.2)
        ((offsets size.1 size.2.1 size.2.2).foldl
          (copySameStep source.1 source.2.1 source.2.2
            dest.1 dest.2.1 dest.2.2 none) (e, [])).1.chunks).2 :=
      buildEntities_mem _ k l ent hlk hent
    have h := scanChunks_staged source.1 source.2.1 source.2.2
      size.1 size.2.1 size.2.2
      (dest.1 - source.1) (dest.2.1 - source.2.1) (dest.2.2 - source.2.2)
      ((offsets size.1 size.2.1 size.2.2).foldl
        (copySameStep source.1 source.2.1 source.2.2
          dest.1 dest.2.1 dest.2.2 none) (e, [])).1.chunks (k, ent) hstaged
    exact h

/-- Concrete check on `edW`: the record staged for destination chunk
`((0,0),(0,1))` is the translated record, and it sits inside a cached
source chunk after the copy. -/
theorem copy_translates_metadata_in_place_witness :
    writesOf (edW.copy_blocks (0,0,0) (0,0,16) (1,1,1) none none).2 = []
  ∧ ∃ (ck : ChunkKey) (c : Chunk),
      (ck, c) ∈ (edW.copy_blocks (0,0,0) (0,0,16) (1,1,1) none none).1.chunks
      ∧ (⟨0, 0, 16, "chest", 0⟩ : Entity) ∈ c.block_entities := by
  have h := copy_translates_metadata_in_place edW (0,0,0) (0,0,16) (1,1,1)
  exact ⟨h.1, h.2 ((0,0), (0,1)) [⟨0, 0, 16, "chest", 0⟩] ⟨0, 0, 16, "chest", 0⟩
    (by decide) (by decide)⟩
